import Mathlib

/-!
Shallow embedding of the Bitcask key/value store (`src/bitcask.h`,
`src/bitcask.cc`).

Modelling conventions:
* A byte is a `Nat`; every byte actually written by the code is `< 256`.
* `std::string` keys/values are byte lists (`List Nat`).
* The on-disk integer fields (`int64_t timestamp`, `size_t key_sz`,
  `size_t value_sz`) are written with `WriteToTarget`, which on the 64-bit
  target emits the 8 low-order bytes in little-endian order; we model them
  as `toLE 8 n` of a `Nat` (timestamps produced by `NowToMicros` are
  non-negative microsecond counts, well below `2 ^ 63`, so `Nat` ordering
  agrees with the `int64_t` ordering used by the code).
* File paths (`file_id`, `db_path_`) are opaque identifiers modelled as `Nat`.
* The filesystem is an association list from file identifier to byte list.
-/

namespace Bitcask

abbrev Byte := Nat

/-- `kTombstoneValue` from bitcask.cc: the reserved value marking a delete. -/
def kTombstoneValue : List Byte := "rdbc_tombstone".toList.map Char.toNat

/-- Little-endian base-256 encoding, fixed width `w` (the byte image that
`WriteToTarget` produces for a `w`-byte integer on the 64-bit target). -/
def toLE : Nat → Nat → List Byte
  | 0, _ => []
  | w + 1, n => n % 256 :: toLE w (n / 256)

/-- Little-endian base-256 decoding (the integer `ReadToTarget` reconstructs). -/
def fromLE : List Byte → Nat
  | [] => 0
  | b :: bs => b + 256 * fromLE bs

/-- `Bitcask::CaskEntry`: one on-disk record. -/
structure CaskEntry where
  timestamp : Nat
  key_sz : Nat
  value_sz : Nat
  key : List Byte
  value : List Byte
deriving DecidableEq

/-- `CaskEntry::ValueOffset()`: `sizeof(timestamp) + sizeof(key_sz) +
sizeof(value_sz) + key.size()` = `8 + 8 + 8 + key.length`. -/
def CaskEntry.ValueOffset (e : CaskEntry) : Nat := 8 + 8 + 8 + e.key.length

/-- `operator<<(std::ostream&, CaskEntry&)`: timestamp, key_sz, value_sz at
8 bytes each, then the raw key and value bytes. -/
def encodeEntry (e : CaskEntry) : List Byte :=
  toLE 8 e.timestamp ++ toLE 8 e.key_sz ++ toLE 8 e.value_sz ++ e.key ++ e.value

/-- A single `istream::read` of `n` bytes: fails (failbit) when fewer than `n`
bytes remain, which the callers of `operator>>` observe as end-of-segment. -/
def readBytes (n : Nat) (s : List Byte) : Option (List Byte × List Byte) :=
  if n ≤ s.length then some (s.take n, s.drop n) else none

/-- `operator>>(std::istream&, CaskEntry&)`: reads the three 8-byte header
fields, then `key_sz` key bytes and `value_sz` value bytes.  Any short read
sets the stream's failbit, which we model as `none`. -/
def decodeEntry (s : List Byte) : Option (CaskEntry × List Byte) :=
  match readBytes 8 s with
  | none => none
  | some (tsb, s1) =>
    match readBytes 8 s1 with
    | none => none
    | some (kszb, s2) =>
      match readBytes 8 s2 with
      | none => none
      | some (vszb, s3) =>
        match readBytes (fromLE kszb) s3 with
        | none => none
        | some (k, s4) =>
          match readBytes (fromLE vszb) s4 with
          | none => none
          | some (v, s5) =>
            some (⟨fromLE tsb, fromLE kszb, fromLE vszb, k, v⟩, s5)

/-- Well-formed record: the size fields match the payload lengths and every
integer field fits in its 8-byte slot (true of every record the code writes,
since `Put` sets `key_sz = key.length()` and `value_sz = value.length()`). -/
def WFEntry (e : CaskEntry) : Prop :=
  e.timestamp < 2 ^ 64 ∧ e.key_sz = e.key.length ∧ e.value_sz = e.value.length ∧
    e.key_sz < 2 ^ 64 ∧ e.value_sz < 2 ^ 64

instance (e : CaskEntry) : Decidable (WFEntry e) := by
  unfold WFEntry; infer_instance

/-- The replay loop of `Bitcask::Open` over a single segment: record the
current stream position (`tellg`), decode one entry, repeat until a decode
fails.  Each decoded entry is returned with the offset it started at.
`fuel` is only a termination device; every successful decode consumes at
least 24 bytes, so `s.length + 1` fuel always suffices (see
`decodeAllFromFuel_eq`). -/
def decodeAllFromFuel : Nat → Nat → List Byte → List (Nat × CaskEntry)
  | 0, _, _ => []
  | fuel + 1, pos, s =>
    match decodeEntry s with
    | none => []
    | some (e, r) =>
        (pos, e) :: decodeAllFromFuel fuel (pos + (s.length - r.length)) r

/-- The replay loop with always-sufficient fuel. -/
def decodeAllFrom (pos : Nat) (s : List Byte) : List (Nat × CaskEntry) :=
  decodeAllFromFuel (s.length + 1) pos s

/-- A segment's bytes as written by the code: the concatenation of the
encodings of the records appended to it, in order. -/
def encodeStream : List CaskEntry → List Byte
  | [] => []
  | e :: es => encodeEntry e ++ encodeStream es

/-- The entries of a record list paired with the offsets they occupy once
encoded one after the other starting at `pos`. -/
def positioned (pos : Nat) : List CaskEntry → List (Nat × CaskEntry)
  | [] => []
  | e :: es => (pos, e) :: positioned (pos + (encodeEntry e).length) es

/-- `Bitcask::KeyDirEntry`: the in-memory index entry.  `file_id` is the
segment path, modelled as an opaque identifier. -/
structure KeyDirEntry where
  file_id : Nat
  value_sz : Nat
  value_pos : Nat
  timestamp : Nat
deriving DecidableEq

/-- `Bitcask::KeyDirMap` (`std::unordered_map<std::string, KeyDirEntry>`),
modelled as an association list holding at most one binding per key. -/
abbrev KeyDirMap := List (List Byte × KeyDirEntry)

/-- `key_dir.find(key)`. -/
def kdFind : KeyDirMap → List Byte → Option KeyDirEntry
  | [], _ => none
  | (k', e) :: rest, k => if k' = k then some e else kdFind rest k

/-- `key_dir[key] = entry`: overwrite the binding in place, or add one. -/
def kdInsert : KeyDirMap → List Byte → KeyDirEntry → KeyDirMap
  | [], k, e => [(k, e)]
  | (k', e') :: rest, k, e =>
    if k' = k then (k, e) :: rest else (k', e') :: kdInsert rest k e

/-- `key_dir.erase(key)` (on the at-most-one-binding representation this is
the same as removing every binding for `key`). -/
def kdErase : KeyDirMap → List Byte → KeyDirMap
  | [], _ => []
  | (k', e') :: rest, k =>
    if k' = k then kdErase rest k else (k', e') :: kdErase rest k

/-- One iteration of the replay loop in `Bitcask::Open`: skip the record when
the KeyDir already holds an entry with `timestamp >=` the record's, erase the
key when the record's value is the tombstone marker, otherwise store a fresh
entry pointing at `entry_start + ValueOffset()` in this segment. -/
def foldEntry (file_id : Nat) (kd : KeyDirMap) (pe : Nat × CaskEntry) :
    KeyDirMap :=
  match kdFind kd pe.2.key with
  | some existing =>
      if existing.timestamp ≥ pe.2.timestamp then kd
      else if pe.2.value = kTombstoneValue then kdErase kd pe.2.key
      else kdInsert kd pe.2.key
        ⟨file_id, pe.2.value_sz, pe.1 + pe.2.ValueOffset, pe.2.timestamp⟩
  | none =>
      if pe.2.value = kTombstoneValue then kdErase kd pe.2.key
      else kdInsert kd pe.2.key
        ⟨file_id, pe.2.value_sz, pe.1 + pe.2.ValueOffset, pe.2.timestamp⟩

/-- Replaying one `.cask` segment during `Bitcask::Open`. -/
def recoverSegment (kd : KeyDirMap) (seg : Nat × List Byte) : KeyDirMap :=
  (decodeAllFrom 0 seg.2).foldl (foldEntry seg.1) kd

/-- The recovery phase of `Bitcask::Open`: fold every `.cask` segment found
in the directory, in the (unspecified) order the directory iterator yields
them. -/
def recover (segs : List (Nat × List Byte)) : KeyDirMap :=
  segs.foldl recoverSegment []

/-- The filesystem: file identifier to byte contents. -/
def diskLookup : List (Nat × List Byte) → Nat → List Byte
  | [], _ => []
  | (i, d) :: rest, j => if i = j then d else diskLookup rest j

/-- Appending bytes to the file `j` (creating it when missing): the effect of
writing through the always-appending `std::ofstream` handle plus flush. -/
def diskWrite : List (Nat × List Byte) → Nat → List Byte →
    List (Nat × List Byte)
  | [], j, bs => [(j, bs)]
  | (i, d) :: rest, j, bs =>
    if i = j then (i, d ++ bs) :: rest else (i, d) :: diskWrite rest j bs

/-- Creating the session's fresh segment (`std::ios::trunc`). -/
def diskCreate : List (Nat × List Byte) → Nat → List (Nat × List Byte)
  | [], j => [(j, [])]
  | (i, d) :: rest, j =>
    if i = j then (i, []) :: rest else (i, d) :: diskCreate rest j

/-- The open Bitcask: active segment path, the files on disk, the KeyDir. -/
structure Store where
  db_path : Nat
  disk : List (Nat × List Byte)
  key_dir : KeyDirMap
deriving DecidableEq

/-- `Bitcask::Open`: build the KeyDir by recovering every existing segment,
then create a fresh empty segment `new_path` for this session. -/
def openStore (disk : List (Nat × List Byte)) (new_path : Nat) : Store :=
  { db_path := new_path
    disk := diskCreate disk new_path
    key_dir := recover disk }

/-- `Bitcask::Put`: build the record, compute the value offset from the
current end of the active segment, append and flush, then unconditionally
overwrite the KeyDir binding.  `time_us` stands for `NowToMicros()`. -/
def putOp (s : Store) (time_us : Nat) (key value : List Byte) : Store :=
  let cask_entry : CaskEntry := ⟨time_us, key.length, value.length, key, value⟩
  let value_pos := (diskLookup s.disk s.db_path).length + cask_entry.ValueOffset
  { s with
    disk := diskWrite s.disk s.db_path (encodeEntry cask_entry)
    key_dir := kdInsert s.key_dir key
      ⟨s.db_path, value.length, value_pos, time_us⟩ }

/-- `Bitcask::Get`: KeyDir lookup — `none` models the thrown
`MissingKeyException` — then seek to `value_pos` in the segment named by the
entry and read exactly `value_sz` bytes, with no integrity validation. -/
def getOp (s : Store) (key : List Byte) : Option (List Byte) :=
  match kdFind s.key_dir key with
  | none => none
  | some e =>
      some (((diskLookup s.disk e.file_id).drop e.value_pos).take e.value_sz)

/-- `Bitcask::Delete`: silently return when the key is absent from the
KeyDir; otherwise `Put` a tombstone record through the ordinary put path and
erase the key from the KeyDir. -/
def deleteOp (s : Store) (time_us : Nat) (key : List Byte) : Store :=
  match kdFind s.key_dir key with
  | none => s
  | some _ =>
      let s' := putOp s time_us key kTombstoneValue
      { s' with key_dir := kdErase s'.key_dir key }

/-- `Bitcask::ListKeys`: every key of the KeyDir, in iteration order. -/
def listKeys (s : Store) : List (List Byte) := s.key_dir.map Prod.fst

/-- A concrete store whose KeyDir binds key `[65]` with timestamp 10. -/
def c3Store : Store :=
  ⟨0, [(0, [])], [([65], ⟨0, 1, 24, 10⟩)]⟩

/-- A concrete store for exercising the `Get` contract: file 0 holds three
bytes and key `[65]` points at the final two of them. -/
def c4Store : Store :=
  ⟨0, [(0, [100, 101, 102])], [([65], ⟨0, 2, 1, 7⟩)]⟩

/-- A fresh store with an empty KeyDir. -/
def c5EmptyStore : Store := ⟨0, [(0, [])], []⟩

/-- A store holding one record for key `[65]`, indexed by the KeyDir. -/
def c5Store : Store :=
  ⟨0, [(0, encodeEntry ⟨1, 1, 1, [65], [66]⟩)], [([65], ⟨0, 1, 25, 1⟩)]⟩

/-- Spec-side definition (spec.md §4.2): `upsert(key, candidate_entry)` —
unconditionally overwrite unless an existing entry for the key has
`timestamp >=` the candidate's, in which case the call is a no-op. -/
def specUpsert (kd : KeyDirMap) (k : List Byte) (e : KeyDirEntry) : KeyDirMap :=
  match kdFind kd k with
  | some existing =>
      if existing.timestamp ≥ e.timestamp then kd else kdInsert kd k e
  | none => kdInsert kd k e

/-- Spec-side definition (spec.md §4.2): `tombstone(key, timestamp)` — if
there is no existing entry, or the existing timestamp is older than the
given one, remove any entry for the key. -/
def specTombstone (kd : KeyDirMap) (k : List Byte) (ts : Nat) : KeyDirMap :=
  match kdFind kd k with
  | some existing => if existing.timestamp < ts then kdErase kd k else kd
  | none => kdErase kd k

/-- Spec-side definition (spec.md §4.3): fold one replayed record —
`tombstone` when its value is the reserved marker, else `upsert` with the
entry computed from the record's position. -/
def specFoldRecord (fid : Nat) (kd : KeyDirMap) (pe : Nat × CaskEntry) :
    KeyDirMap :=
  if pe.2.value = kTombstoneValue then specTombstone kd pe.2.key pe.2.timestamp
  else specUpsert kd pe.2.key
    ⟨fid, pe.2.value_sz, pe.1 + pe.2.ValueOffset, pe.2.timestamp⟩

/-- Spec-side definition: replay one segment's records in file order. -/
def specReplaySegment (kd : KeyDirMap) (seg : Nat × List Byte) : KeyDirMap :=
  (decodeAllFrom 0 seg.2).foldl (specFoldRecord seg.1) kd

/-- Spec-side definition: replay all segments in processing order. -/
def specReplay (segs : List (Nat × List Byte)) : KeyDirMap :=
  segs.foldl specReplaySegment []

/-- A segment holding only a tombstone for key `[66]` at timestamp 10. -/
def c2TombSeg : Nat × List Byte :=
  (1, encodeStream [⟨10, 1, kTombstoneValue.length, [66], kTombstoneValue⟩])

/-- A segment holding only a put of key `[66]` at timestamp 5. -/
def c2PutSeg : Nat × List Byte :=
  (0, encodeStream [⟨5, 1, 1, [66], [50]⟩])

/-- One public-API call of a session, with `NowToMicros()` passed in
explicitly as the timestamp it would have produced. -/
inductive Op where
  | put (time_us : Nat) (key value : List Byte)
  | del (time_us : Nat) (key : List Byte)
deriving DecidableEq

/-- Dispatch one API call. -/
def applyOp (s : Store) : Op → Store
  | .put ts k v => putOp s ts k v
  | .del ts k => deleteOp s ts k

/-- Run a sequence of API calls against a store. -/
def exec (s : Store) : List Op → Store
  | [] => s
  | op :: ops => exec (applyOp s op) ops

/-- The timestamp an operation carries. -/
def tsOf : Op → Nat
  | .put ts _ _ => ts
  | .del ts _ => ts

/-- Encodability bounds for one operation, plus the restriction that an
ordinary `Put` does not pass the reserved marker as its value (doing so acts
as a delayed delete — see C10). -/
def WFOp : Op → Prop
  | .put ts k v =>
      ts < 2 ^ 64 ∧ k.length < 2 ^ 64 ∧ v.length < 2 ^ 64 ∧ v ≠ kTombstoneValue
  | .del ts k => ts < 2 ^ 64 ∧ k.length < 2 ^ 64

instance (op : Op) : Decidable (WFOp op) :=
  match op with
  | .put ts k v => inferInstanceAs (Decidable (ts < 2 ^ 64 ∧ k.length < 2 ^ 64 ∧
      v.length < 2 ^ 64 ∧ v ≠ kTombstoneValue))
  | .del ts k => inferInstanceAs (Decidable (ts < 2 ^ 64 ∧ k.length < 2 ^ 64))

/-- The specification's view of one operation: `Put` binds the key to its
(timestamp, value), `Delete` removes the binding. -/
def liveApply (m : List Byte → Option (Nat × List Byte)) :
    Op → List Byte → Option (Nat × List Byte)
  | .put ts k v => fun k' => if k = k' then some (ts, v) else m k'
  | .del _ k => fun k' => if k = k' then none else m k'

/-- The surviving write per key after a list of operations, from `m`. -/
def liveFrom (m : List Byte → Option (Nat × List Byte)) :
    List Op → List Byte → Option (Nat × List Byte)
  | [] => m
  | op :: ops => liveFrom (liveApply m op) ops

/-- The surviving write per key after a whole session from scratch: the
record with the greatest timestamp among those not superseded by a later
delete (timestamps are strictly increasing along a session, so "last in
order" and "greatest timestamp" coincide). -/
def liveVal (ops : List Op) : List Byte → Option (Nat × List Byte) :=
  liveFrom (fun _ => none) ops

/-- Session invariant tying a store to the spec map `m`: the session wrote
a clean stream of well-formed records into its single segment, the KeyDir
is exactly what recovering the disk yields, each binding points at the value
bytes of its key's surviving record, and `bound` dominates every timestamp
in the KeyDir. -/
def SessionInv (fid bound : Nat) (m : List Byte → Option (Nat × List Byte))
    (s : Store) : Prop :=
  s.db_path = fid ∧
  (∃ rs, (∀ e ∈ rs, WFEntry e) ∧ s.disk = [(fid, encodeStream rs)]) ∧
  s.key_dir = recover s.disk ∧
  (∀ k, kdFind s.key_dir k = none ↔ m k = none) ∧
  (∀ k ts v, m k = some (ts, v) →
    ∃ e, kdFind s.key_dir k = some e ∧ e.timestamp = ts ∧ e.file_id = fid ∧
      e.value_sz = v.length ∧
      e.value_pos + e.value_sz ≤ (diskLookup s.disk fid).length ∧
      ((diskLookup s.disk fid).drop e.value_pos).take e.value_sz = v) ∧
  (∀ k e, kdFind s.key_dir k = some e → e.timestamp < bound)

/-! ## Theorems -/

theorem toLE_length (w n : Nat) : (toLE w n).length = w := by
  induction w generalizing n with
  | zero => rfl
  | succ w ih => simp [toLE, ih]

theorem fromLE_toLE (w n : Nat) : fromLE (toLE w n) = n % 256 ^ w := by
  induction w generalizing n with
  | zero => simp [toLE, fromLE, Nat.mod_one]
  | succ w ih =>
      simp only [toLE, fromLE, ih]
      rw [pow_succ', Nat.mod_mul]

theorem fromLE_toLE_of_lt {w n : Nat} (h : n < 256 ^ w) :
    fromLE (toLE w n) = n := by
  rw [fromLE_toLE, Nat.mod_eq_of_lt h]

theorem encodeEntry_length (e : CaskEntry) :
    (encodeEntry e).length = 24 + e.key.length + e.value.length := by
  simp [encodeEntry, toLE_length]; omega

theorem readBytes_self (s t : List Byte) : readBytes s.length (s ++ t) = some (s, t) := by
  simp [readBytes, List.take_left, List.drop_left]

theorem readBytes_toLE (w n : Nat) (t : List Byte) :
    readBytes w (toLE w n ++ t) = some (toLE w n, t) := by
  have h := readBytes_self (toLE w n) t
  rwa [toLE_length] at h

theorem readBytes_some {n : Nat} {s a b : List Byte}
    (h : readBytes n s = some (a, b)) :
    a.length = n ∧ s = a ++ b := by
  unfold readBytes at h
  split at h
  · rename_i hn
    simp only [Option.some.injEq, Prod.mk.injEq] at h
    obtain ⟨h1, h2⟩ := h
    subst h1; subst h2
    refine ⟨?_, (List.take_append_drop n s).symm⟩
    simpa [List.length_take] using Nat.min_eq_left hn
  · exact absurd h (by simp)

/-- Decoding the encoding of a well-formed record consumes exactly the
record's bytes and returns the record unchanged. -/
theorem decodeEntry_encode {e : CaskEntry} (rest : List Byte) (h : WFEntry e) :
    decodeEntry (encodeEntry e ++ rest) = some (e, rest) := by
  obtain ⟨hts, hk, hv, hklt, hvlt⟩ := h
  have h256 : (2 : Nat) ^ 64 = 256 ^ 8 := by norm_num
  rw [h256] at hts hklt hvlt
  have hkr : readBytes e.key_sz (e.key ++ (e.value ++ rest)) =
      some (e.key, e.value ++ rest) := by
    rw [hk]; exact readBytes_self _ _
  have hvr : readBytes e.value_sz (e.value ++ rest) = some (e.value, rest) := by
    rw [hv]; exact readBytes_self _ _
  simp only [decodeEntry, encodeEntry, List.append_assoc, readBytes_toLE, hkr, hvr,
    fromLE_toLE_of_lt hts, fromLE_toLE_of_lt hklt, fromLE_toLE_of_lt hvlt]

/-- Inversion for a successful decode: the decoded sizes match the payload
lengths, the three header fields are read from the first 24 bytes, and exactly
`24 + key_sz + value_sz` bytes are consumed. -/
theorem decodeEntry_some {s : List Byte} {e : CaskEntry} {r : List Byte}
    (h : decodeEntry s = some (e, r)) :
    e.key.length = e.key_sz ∧ e.value.length = e.value_sz ∧
      e.key_sz = fromLE ((s.drop 8).take 8) ∧
      e.value_sz = fromLE ((s.drop 16).take 8) ∧
      s.length = 24 + e.key_sz + e.value_sz + r.length := by
  unfold decodeEntry at h
  split at h
  · exact absurd h (by simp)
  rename_i tsb s1 h1
  split at h
  · exact absurd h (by simp)
  rename_i kszb s2 h2
  split at h
  · exact absurd h (by simp)
  rename_i vszb s3 h3
  split at h
  · exact absurd h (by simp)
  rename_i k s4 h4
  split at h
  · exact absurd h (by simp)
  rename_i v s5 h5
  obtain ⟨he, hr⟩ := Prod.mk.injEq _ _ _ _ ▸ Option.some.injEq _ _ ▸ h
  subst hr
  obtain ⟨hl1, hs1⟩ := readBytes_some h1
  obtain ⟨hl2, hs2⟩ := readBytes_some h2
  obtain ⟨hl3, hs3⟩ := readBytes_some h3
  obtain ⟨hl4, hs4⟩ := readBytes_some h4
  obtain ⟨hl5, hs5⟩ := readBytes_some h5
  subst hs1 hs2 hs3 hs4 hs5
  subst he
  refine ⟨hl4, hl5, ?_, ?_, ?_⟩
  · rw [List.drop_left' hl1, List.take_left' hl2]
  · have h16 : (16 : Nat) = tsb.length + kszb.length := by omega
    rw [h16, ← List.drop_drop, List.drop_left, List.drop_left, List.take_left' hl3]
  · simp only [List.length_append]
    omega

theorem decodeEntry_shrink {s : List Byte} {e : CaskEntry} {r : List Byte}
    (h : decodeEntry s = some (e, r)) : r.length < s.length := by
  have h' := (decodeEntry_some h).2.2.2.2
  omega

theorem decodeAllFromFuel_eq {fuel : Nat} {s : List Byte} (pos : Nat)
    (h : s.length < fuel) :
    decodeAllFromFuel fuel pos s = decodeAllFrom pos s := by
  induction fuel using Nat.strong_induction_on generalizing pos s with
  | _ fuel ih =>
      match fuel, h with
      | fuel + 1, h =>
          unfold decodeAllFrom
          cases hd : decodeEntry s with
          | none => simp [decodeAllFromFuel, hd]
          | some p =>
              obtain ⟨e, r⟩ := p
              have hr := decodeEntry_shrink hd
              simp only [decodeAllFromFuel, hd]
              rw [ih fuel (by omega) _ (by omega), ih s.length (by omega) _ hr]

theorem decodeAllFromFuel_succ (fuel pos : Nat) (s : List Byte) :
    decodeAllFromFuel (fuel + 1) pos s =
      match decodeEntry s with
      | none => []
      | some (e, r) =>
          (pos, e) :: decodeAllFromFuel fuel (pos + (s.length - r.length)) r :=
  rfl

theorem decodeAllFrom_none {pos : Nat} {s : List Byte}
    (h : decodeEntry s = none) : decodeAllFrom pos s = [] := by
  rw [decodeAllFrom, decodeAllFromFuel_succ, h]

theorem decodeAllFrom_some {pos : Nat} {s r : List Byte} {e : CaskEntry}
    (h : decodeEntry s = some (e, r)) :
    decodeAllFrom pos s =
      (pos, e) :: decodeAllFrom (pos + (s.length - r.length)) r := by
  have hr := decodeEntry_shrink h
  rw [decodeAllFrom, decodeAllFromFuel_succ, h]
  show (pos, e) :: decodeAllFromFuel s.length (pos + (s.length - r.length)) r =
    (pos, e) :: decodeAllFrom (pos + (s.length - r.length)) r
  rw [decodeAllFromFuel_eq _ hr]

theorem encodeStream_append (rs rs' : List CaskEntry) :
    encodeStream (rs ++ rs') = encodeStream rs ++ encodeStream rs' := by
  induction rs with
  | nil => rfl
  | cons e es ih => simp [encodeStream, ih]

/-- Replaying a well-formed record stream followed by arbitrary residue
decodes exactly the stream's records (at their offsets) and then continues
into the residue. -/
theorem decodeAllFrom_stream (rs : List CaskEntry) (t : List Byte) (pos : Nat)
    (hwf : ∀ e ∈ rs, WFEntry e) :
    decodeAllFrom pos (encodeStream rs ++ t) =
      positioned pos rs ++ decodeAllFrom (pos + (encodeStream rs).length) t := by
  induction rs generalizing pos with
  | nil => simp [encodeStream, positioned]
  | cons e es ih =>
      have hwe : WFEntry e := hwf e (by simp)
      have hd : decodeEntry (encodeEntry e ++ (encodeStream es ++ t)) =
          some (e, encodeStream es ++ t) := decodeEntry_encode _ hwe
      rw [encodeStream, List.append_assoc, decodeAllFrom_some hd]
      have hlen : (encodeEntry e ++ (encodeStream es ++ t)).length -
          (encodeStream es ++ t).length = (encodeEntry e).length := by
        simp only [List.length_append]
        omega
      rw [hlen, ih _ (fun e' he' => hwf e' (by simp [he']))]
      simp [positioned, encodeStream, List.length_append, Nat.add_assoc]

/-- A strict prefix of a well-formed record's encoding never decodes: some
field's read comes up short (modelling the failbit on a truncated tail). -/
theorem decodeEntry_take_none {e : CaskEntry} (h : WFEntry e) {m : Nat}
    (hm : m < (encodeEntry e).length) :
    decodeEntry ((encodeEntry e).take m) = none := by
  obtain ⟨hts, hk, hv, hklt, hvlt⟩ := h
  cases hdec : decodeEntry ((encodeEntry e).take m) with
  | none => rfl
  | some p =>
      obtain ⟨e', r⟩ := p
      obtain ⟨-, -, hk', hv', hlen⟩ := decodeEntry_some hdec
      have henc : (encodeEntry e).length = 24 + e.key.length + e.value.length :=
        encodeEntry_length e
      have hml : ((encodeEntry e).take m).length = m := by
        rw [List.length_take]
        omega
      have h24 : 24 ≤ m := by
        by_contra hlt
        have := hlen
        omega
      have hpow : (2 : Nat) ^ 64 = 256 ^ 8 := by norm_num
      have hkey : e'.key_sz = e.key_sz := by
        rw [hk', List.drop_take, List.take_take]
        have hmin : min 8 (m - 8) = 8 := by omega
        have hdrop : (encodeEntry e).drop 8 =
            toLE 8 e.key_sz ++ (toLE 8 e.value_sz ++ (e.key ++ e.value)) := by
          unfold encodeEntry
          rw [List.append_assoc, List.append_assoc, List.append_assoc,
            List.drop_left' (toLE_length 8 e.timestamp)]
        rw [hmin, hdrop, List.take_left' (toLE_length 8 e.key_sz),
          fromLE_toLE_of_lt (hpow ▸ hklt)]
      have hval : e'.value_sz = e.value_sz := by
        rw [hv', List.drop_take, List.take_take]
        have hmin : min 8 (m - 16) = 8 := by omega
        have hdrop : (encodeEntry e).drop 16 =
            toLE 8 e.value_sz ++ (e.key ++ e.value) := by
          unfold encodeEntry
          rw [List.append_assoc, List.append_assoc, List.append_assoc]
          have h16 : (16 : Nat) =
              (toLE 8 e.timestamp).length + (toLE 8 e.key_sz).length := by
            simp [toLE_length]
          rw [h16, ← List.drop_drop, List.drop_left, List.drop_left]
        rw [hmin, hdrop, List.take_left' (toLE_length 8 e.value_sz),
          fromLE_toLE_of_lt (hpow ▸ hvlt)]
      rw [hml, hkey, hval] at hlen
      omega

theorem kdFind_insert_self (kd : KeyDirMap) (k : List Byte) (e : KeyDirEntry) :
    kdFind (kdInsert kd k e) k = some e := by
  induction kd with
  | nil => simp [kdInsert, kdFind]
  | cons p rest ih =>
      obtain ⟨k', e'⟩ := p
      by_cases h : k' = k <;> simp [kdInsert, kdFind, h, ih]

theorem kdFind_insert_ne (kd : KeyDirMap) {k k' : List Byte} (e : KeyDirEntry)
    (h : k' ≠ k) : kdFind (kdInsert kd k e) k' = kdFind kd k' := by
  induction kd with
  | nil => simp [kdInsert, kdFind, Ne.symm h]
  | cons p rest ih =>
      obtain ⟨k'', e''⟩ := p
      by_cases h2 : k'' = k
      · subst h2
        simp [kdInsert, kdFind, Ne.symm h]
      · by_cases h3 : k'' = k' <;> simp [kdInsert, kdFind, h, h2, h3, ih]

theorem kdFind_erase_self (kd : KeyDirMap) (k : List Byte) :
    kdFind (kdErase kd k) k = none := by
  induction kd with
  | nil => simp [kdErase, kdFind]
  | cons p rest ih =>
      obtain ⟨k', e'⟩ := p
      by_cases h : k' = k <;> simp [kdErase, kdFind, h, ih]

theorem kdFind_erase_ne (kd : KeyDirMap) {k k' : List Byte} (h : k' ≠ k) :
    kdFind (kdErase kd k) k' = kdFind kd k' := by
  induction kd with
  | nil => simp [kdErase, kdFind]
  | cons p rest ih =>
      obtain ⟨k'', e''⟩ := p
      by_cases h2 : k'' = k
      · subst h2
        simp [kdErase, kdFind, Ne.symm h, ih]
      · by_cases h3 : k'' = k' <;> simp [kdErase, kdFind, h, h2, h3, ih]

theorem kdErase_insert (kd : KeyDirMap) (k : List Byte) (e : KeyDirEntry) :
    kdErase (kdInsert kd k e) k = kdErase kd k := by
  induction kd with
  | nil => simp [kdInsert, kdErase]
  | cons p rest ih =>
      obtain ⟨k', e'⟩ := p
      by_cases h : k' = k <;> simp [kdInsert, kdErase, h, ih]

theorem diskLookup_write_self (d : List (Nat × List Byte)) (j : Nat)
    (bs : List Byte) : diskLookup (diskWrite d j bs) j = diskLookup d j ++ bs := by
  induction d with
  | nil => simp [diskWrite, diskLookup]
  | cons p rest ih =>
      obtain ⟨i, c⟩ := p
      by_cases h : i = j <;> simp [diskWrite, diskLookup, h, ih]

theorem diskLookup_write_ne (d : List (Nat × List Byte)) {i j : Nat}
    (bs : List Byte) (h : i ≠ j) :
    diskLookup (diskWrite d j bs) i = diskLookup d i := by
  induction d with
  | nil => simp [diskWrite, diskLookup, Ne.symm h]
  | cons p rest ih =>
      obtain ⟨i', c⟩ := p
      by_cases h2 : i' = j
      · subst h2
        simp [diskWrite, diskLookup, Ne.symm h]
      · by_cases h3 : i' = i <;> simp [diskWrite, diskLookup, h, h2, h3, ih]

theorem slice_append {l t : List Byte} {p n : Nat} (h : p + n ≤ l.length) :
    ((l ++ t).drop p).take n = (l.drop p).take n := by
  rw [List.drop_append_eq_append_drop, List.take_append_eq_append_take]
  have h1 : p - l.length = 0 := by omega
  have h2 : n - (l.drop p).length = 0 := by
    rw [List.length_drop]
    omega
  rw [h1, h2]
  simp

/-- The value payload of an encoded record sits at `ValueOffset()` from the
record start. -/
theorem encodeEntry_value_slice (e : CaskEntry) :
    ((encodeEntry e).drop e.ValueOffset).take e.value.length = e.value := by
  have hsplit : encodeEntry e =
      (toLE 8 e.timestamp ++ toLE 8 e.key_sz ++ toLE 8 e.value_sz ++ e.key) ++
        e.value := by
    simp [encodeEntry]
  have hlen : (toLE 8 e.timestamp ++ toLE 8 e.key_sz ++ toLE 8 e.value_sz ++
      e.key).length = e.ValueOffset := by
    simp [toLE_length, CaskEntry.ValueOffset]
    omega
  rw [hsplit, List.drop_left' hlen, List.take_length]

/-- The key fact behind `Put`/`Get` round-trips: the entry `Put` stores
points exactly at the value bytes it appended. -/
theorem getOp_putOp_self (s : Store) (ts : Nat) (k v : List Byte) :
    getOp (putOp s ts k v) k = some v := by
  unfold getOp putOp
  simp only [kdFind_insert_self]
  rw [diskLookup_write_self]
  have hsplit : encodeEntry ⟨ts, k.length, v.length, k, v⟩ =
      (toLE 8 ts ++ toLE 8 k.length ++ toLE 8 v.length ++ k) ++ v := by
    simp [encodeEntry]
  have hlen : (diskLookup s.disk s.db_path ++
      (toLE 8 ts ++ toLE 8 k.length ++ toLE 8 v.length ++ k)).length =
      (diskLookup s.disk s.db_path).length +
        (CaskEntry.ValueOffset ⟨ts, k.length, v.length, k, v⟩) := by
    simp [toLE_length, CaskEntry.ValueOffset]
    omega
  rw [hsplit, ← List.append_assoc, List.drop_left' hlen, List.take_length]

theorem getOp_none_iff (s : Store) (k : List Byte) :
    getOp s k = none ↔ kdFind s.key_dir k = none := by
  unfold getOp
  cases kdFind s.key_dir k <;> simp

theorem getOp_putOp_none (s : Store) (ts' : Nat) {k k' : List Byte}
    (v' : List Byte) (hne : k ≠ k') (h : kdFind s.key_dir k = none) :
    getOp (putOp s ts' k' v') k = none := by
  rw [getOp_none_iff]
  unfold putOp
  simpa only [kdFind_insert_ne _ _ hne] using h

/-- C1: for every key `k` (including the empty key) and every value `v`,
immediately after `Put(k, v)` on an open Store — whether or not `k` was
written before — `Get(k)` returns exactly `v`. -/
theorem C1_put_then_get (s : Store) (ts : Nat) (k v : List Byte) :
    getOp (putOp s ts k v) k = some v :=
  getOp_putOp_self s ts k v

/-- C3 counterexample: on a store whose KeyDir binds key `[65]` with
timestamp 10, `Put` with the older timestamp 5 is not a no-op — it replaces
the binding (the stored timestamp drops to 5), because `Bitcask::Put` writes
`key_dir_[key] = {...}` without any timestamp comparison. -/
theorem C3_counterexample :
    kdFind (putOp c3Store 5 [65] [66]).key_dir [65] ≠
      kdFind c3Store.key_dir [65] := by
  decide

/-- C3 amended: `Put(k, v)` unconditionally overwrites the KeyDir binding
for `k` with a fresh entry for the record it just appended, regardless of
any existing entry's timestamp; the `timestamp >=` recency (upsert) rule is
applied only in the recovery fold of `Open`. -/
theorem C3_put_overwrites_unconditionally (s : Store) (ts : Nat)
    (k v : List Byte) :
    kdFind (putOp s ts k v).key_dir k =
      some ⟨s.db_path, v.length,
        (diskLookup s.disk s.db_path).length + 24 + k.length, ts⟩ := by
  unfold putOp
  simp only [kdFind_insert_self]
  have harith : (diskLookup s.disk s.db_path).length +
      CaskEntry.ValueOffset ⟨ts, k.length, v.length, k, v⟩ =
      (diskLookup s.disk s.db_path).length + 24 + k.length := by
    simp [CaskEntry.ValueOffset]
    omega
  rw [harith]

/-- C4: `Get(k)` fails (the thrown `MissingKeyException`, i.e. KeyNotFound)
iff `k` is absent from the KeyDir; when an entry is present, `Get` reads
exactly `value_sz` bytes at `value_pos` of the segment file named by the
entry and returns them, with no integrity validation. -/
theorem C4_get_contract (s : Store) (k : List Byte) :
    (getOp s k = none ↔ kdFind s.key_dir k = none) ∧
    (∀ e, kdFind s.key_dir k = some e →
      getOp s k =
        some (((diskLookup s.disk e.file_id).drop e.value_pos).take
          e.value_sz)) := by
  refine ⟨getOp_none_iff s k, fun e he => ?_⟩
  unfold getOp
  rw [he]

theorem C4_get_contract_witness :
    getOp c4Store [65] = some [101, 102] := by
  have h := (C4_get_contract c4Store [65]).2 ⟨0, 2, 1, 7⟩ (by decide)
  rw [h]
  decide

/-- C5: `Delete(k)` on a key absent from the KeyDir is a silent no-op; on a
present key it appends a tombstone record through the same path as `Put` and
then erases `k` from the KeyDir, so `Get(k)` fails — and keeps failing
across writes to other keys — until a later `Put(k, _)` rebinds it. -/
theorem C5_delete_contract (s : Store) (ts : Nat) (k : List Byte) :
    (kdFind s.key_dir k = none → deleteOp s ts k = s) ∧
    (∀ e, kdFind s.key_dir k = some e →
      deleteOp s ts k =
        { putOp s ts k kTombstoneValue with
          key_dir := kdErase (putOp s ts k kTombstoneValue).key_dir k } ∧
      getOp (deleteOp s ts k) k = none ∧
      (∀ ts' k' v', k ≠ k' → getOp (putOp (deleteOp s ts k) ts' k' v') k = none) ∧
      (∀ ts' v, getOp (putOp (deleteOp s ts k) ts' k v) k = some v)) := by
  constructor
  · intro h
    unfold deleteOp
    rw [h]
  · intro e he
    have hdel : deleteOp s ts k =
        { putOp s ts k kTombstoneValue with
          key_dir := kdErase (putOp s ts k kTombstoneValue).key_dir k } := by
      unfold deleteOp
      rw [he]
    have hnone : kdFind (deleteOp s ts k).key_dir k = none := by
      rw [hdel]
      exact kdFind_erase_self _ k
    refine ⟨hdel, (getOp_none_iff _ k).mpr hnone, ?_, ?_⟩
    · intro ts' k' v' hne
      exact getOp_putOp_none _ ts' v' hne hnone
    · intro ts' v
      exact getOp_putOp_self _ ts' k v

theorem C5_delete_contract_witness :
    deleteOp c5EmptyStore 3 [65] = c5EmptyStore ∧
    getOp (deleteOp c5Store 3 [65]) [65] = none :=
  ⟨(C5_delete_contract c5EmptyStore 3 [65]).1 (by decide),
   ((C5_delete_contract c5Store 3 [65]).2 ⟨0, 1, 25, 1⟩ (by decide)).2.1⟩

/-- C7: `encode` lays the record out as
`[timestamp: 8 bytes][key_size: 8][value_size: 8][key][value]`;
`decode (encode r ++ rest)` returns exactly `r` while consuming
`8 + 8 + 8 + key_size + value_size` bytes; and decoding any strictly shorter
prefix of the record signals the short read (`none`, the stream failbit). -/
theorem C7_codec_roundtrip (e : CaskEntry) (rest : List Byte) (h : WFEntry e) :
    decodeEntry (encodeEntry e ++ rest) = some (e, rest) ∧
    (encodeEntry e).length = 8 + 8 + 8 + e.key_sz + e.value_sz ∧
    (∀ m, m < (encodeEntry e).length →
      decodeEntry ((encodeEntry e).take m) = none) := by
  refine ⟨decodeEntry_encode rest h, ?_, fun m hm => decodeEntry_take_none h hm⟩
  obtain ⟨-, hk, hv, -, -⟩ := h
  rw [encodeEntry_length, hk, hv]

theorem foldEntry_eq_spec (fid : Nat) (kd : KeyDirMap) (pe : Nat × CaskEntry) :
    foldEntry fid kd pe = specFoldRecord fid kd pe := by
  unfold foldEntry specFoldRecord specUpsert specTombstone
  cases h : kdFind kd pe.2.key with
  | none => by_cases ht : pe.2.value = kTombstoneValue <;> simp [ht]
  | some ex =>
      rcases le_or_lt pe.2.timestamp ex.timestamp with hle | hlt
      · have h1 : ex.timestamp ≥ pe.2.timestamp := hle
        have h2 : ¬ ex.timestamp < pe.2.timestamp := not_lt.mpr hle
        by_cases ht : pe.2.value = kTombstoneValue <;> simp [ht, h1, h2]
      · have h1 : ¬ ex.timestamp ≥ pe.2.timestamp := not_le.mpr hlt
        by_cases ht : pe.2.value = kTombstoneValue <;> simp [ht, h1, hlt]

theorem recoverSegment_eq_spec (kd : KeyDirMap) (seg : Nat × List Byte) :
    recoverSegment kd seg = specReplaySegment kd seg := by
  unfold recoverSegment specReplaySegment
  have h : foldEntry seg.1 = specFoldRecord seg.1 := by
    funext kd' pe
    exact foldEntry_eq_spec seg.1 kd' pe
  rw [h]

/-- C2 counterexample: the same two segments — one holding a put of key
`[66]` at timestamp 5, the other a tombstone for it at timestamp 10 —
recover to different KeyDirs depending on processing order: when the
tombstone's segment is processed first, its erase is a no-op and the older
put resurrects the key. -/
theorem C2_counterexample :
    recover [c2TombSeg, c2PutSeg] ≠ recover [c2PutSeg, c2TombSeg] := by
  decide

/-- C2 amended: recovery produces exactly the KeyDir obtained by replaying
every record of every segment in its own within-segment file order through
the spec's `upsert`/`tombstone` recency rules, folding the segments in the
order they are processed; the result is however not independent of that
processing order (the tombstone erase forgets its timestamp — see the
counterexample). -/
theorem C2_recover_is_spec_replay (segs : List (Nat × List Byte)) :
    recover segs = specReplay segs := by
  unfold recover specReplay
  have h : recoverSegment = specReplaySegment := by
    funext kd seg
    exact recoverSegment_eq_spec kd seg
  rw [h]

/-- Replaying a segment that is a clean concatenation of well-formed records
visits exactly those records at their offsets. -/
theorem decodeAllFrom_stream_nil (rs : List CaskEntry) (pos : Nat)
    (hwf : ∀ e ∈ rs, WFEntry e) :
    decodeAllFrom pos (encodeStream rs) = positioned pos rs := by
  have h := decodeAllFrom_stream rs [] pos hwf
  rw [List.append_nil] at h
  rw [h, decodeAllFrom_none (by decide), List.append_nil]

theorem recoverSegment_stream (fid : Nat) (kd : KeyDirMap)
    (rs : List CaskEntry) (hwf : ∀ e ∈ rs, WFEntry e) :
    recoverSegment kd (fid, encodeStream rs) =
      (positioned 0 rs).foldl (foldEntry fid) kd := by
  unfold recoverSegment
  rw [decodeAllFrom_stream_nil rs 0 hwf]

/-- C8: a segment made of complete records followed by a truncated trailing
record replays exactly the complete records — the short read on the tail is
treated as end-of-segment, recovery folds just those records into the KeyDir
and returns normally, with no error and no partial-record recovery. -/
theorem C8_truncated_tail (fid : Nat) (kd : KeyDirMap) (rs : List CaskEntry)
    (r' : CaskEntry) (m : Nat) (hwf : ∀ e ∈ rs, WFEntry e) (hwf' : WFEntry r')
    (hm : m < (encodeEntry r').length) :
    decodeAllFrom 0 (encodeStream rs ++ (encodeEntry r').take m) =
      positioned 0 rs ∧
    recoverSegment kd (fid, encodeStream rs ++ (encodeEntry r').take m) =
      (positioned 0 rs).foldl (foldEntry fid) kd := by
  have htail : decodeEntry ((encodeEntry r').take m) = none :=
    decodeEntry_take_none hwf' hm
  have hd := decodeAllFrom_stream rs ((encodeEntry r').take m) 0 hwf
  rw [decodeAllFrom_none htail, List.append_nil] at hd
  exact ⟨hd, by unfold recoverSegment; rw [hd]⟩

theorem C8_truncated_tail_witness :
    decodeAllFrom 0 (encodeStream [⟨1, 1, 1, [65], [66]⟩] ++
      (encodeEntry ⟨2, 1, 1, [67], [68]⟩).take 10) =
      positioned 0 [⟨1, 1, 1, [65], [66]⟩] :=
  (C8_truncated_tail 0 [] [⟨1, 1, 1, [65], [66]⟩] ⟨2, 1, 1, [67], [68]⟩ 10
    (by decide) (by decide) (by decide)).1

theorem C7_codec_roundtrip_witness :
    decodeEntry (encodeEntry ⟨5, 1, 2, [10], [20, 30]⟩ ++ [9]) =
      some (⟨5, 1, 2, [10], [20, 30]⟩, [9]) ∧
    decodeEntry ((encodeEntry ⟨5, 1, 2, [10], [20, 30]⟩).take 26) = none :=
  ⟨(C7_codec_roundtrip ⟨5, 1, 2, [10], [20, 30]⟩ [9] (by decide)).1,
   (C7_codec_roundtrip ⟨5, 1, 2, [10], [20, 30]⟩ [] (by decide)).2.2 26
     (by decide)⟩

theorem kdFind_eq_none_iff (kd : KeyDirMap) (k : List Byte) :
    kdFind kd k = none ↔ k ∉ kd.map Prod.fst := by
  induction kd with
  | nil => simp [kdFind]
  | cons p rest ih =>
      obtain ⟨k', e'⟩ := p
      by_cases h : k' = k
      · simp [kdFind, h]
      · simp [kdFind, h, ih, Ne.symm h]

theorem mem_keys_insert (kd : KeyDirMap) (k : List Byte) (e : KeyDirEntry)
    (k' : List Byte) :
    k' ∈ (kdInsert kd k e).map Prod.fst ↔ k' ∈ kd.map Prod.fst ∨ k' = k := by
  induction kd with
  | nil => simp [kdInsert]
  | cons p rest ih =>
      obtain ⟨k'', e''⟩ := p
      by_cases h : k'' = k <;> simp [kdInsert, h, ih] <;> tauto

theorem nodup_keys_insert {kd : KeyDirMap} (h : (kd.map Prod.fst).Nodup)
    (k : List Byte) (e : KeyDirEntry) :
    ((kdInsert kd k e).map Prod.fst).Nodup := by
  induction kd with
  | nil => simp [kdInsert]
  | cons p rest ih =>
      obtain ⟨k', e'⟩ := p
      simp only [List.map_cons, List.nodup_cons] at h
      by_cases hk : k' = k
      · subst hk
        simpa [kdInsert] using h
      · simp only [kdInsert, if_neg hk, List.map_cons, List.nodup_cons]
        refine ⟨?_, ih h.2⟩
        rw [mem_keys_insert]
        push_neg
        exact ⟨h.1, hk⟩

theorem kdErase_sublist (kd : KeyDirMap) (k : List Byte) :
    List.Sublist (kdErase kd k) kd := by
  induction kd with
  | nil => simp [kdErase]
  | cons p rest ih =>
      obtain ⟨k', e'⟩ := p
      by_cases h : k' = k
      · rw [kdErase, if_pos h]
        exact List.Sublist.cons _ ih
      · rw [kdErase, if_neg h]
        exact List.Sublist.cons₂ _ ih

theorem nodup_keys_erase {kd : KeyDirMap} (h : (kd.map Prod.fst).Nodup)
    (k : List Byte) : ((kdErase kd k).map Prod.fst).Nodup :=
  h.sublist ((kdErase_sublist kd k).map Prod.fst)

theorem nodup_keys_foldEntry (fid : Nat) {kd : KeyDirMap}
    (h : (kd.map Prod.fst).Nodup) (pe : Nat × CaskEntry) :
    ((foldEntry fid kd pe).map Prod.fst).Nodup := by
  unfold foldEntry
  cases kdFind kd pe.2.key with
  | none =>
      by_cases ht : pe.2.value = kTombstoneValue <;>
        simp [ht, nodup_keys_erase h, nodup_keys_insert h]
  | some ex =>
      by_cases hts : ex.timestamp ≥ pe.2.timestamp
      · simpa [hts] using h
      · by_cases ht : pe.2.value = kTombstoneValue <;>
          simp [hts, ht, nodup_keys_erase h, nodup_keys_insert h]

theorem nodup_keys_foldl_foldEntry (fid : Nat) (pes : List (Nat × CaskEntry))
    {kd : KeyDirMap} (h : (kd.map Prod.fst).Nodup) :
    ((pes.foldl (foldEntry fid) kd).map Prod.fst).Nodup := by
  induction pes generalizing kd with
  | nil => exact h
  | cons pe pes ih => exact ih (nodup_keys_foldEntry fid h pe)

theorem nodup_keys_recover (segs : List (Nat × List Byte)) :
    ((recover segs).map Prod.fst).Nodup := by
  unfold recover
  have hgen : ∀ (ss : List (Nat × List Byte)) (kd : KeyDirMap),
      (kd.map Prod.fst).Nodup →
      ((ss.foldl recoverSegment kd).map Prod.fst).Nodup := by
    intro ss
    induction ss with
    | nil => intro kd h; exact h
    | cons seg ss ih =>
        intro kd h
        exact ih _ (nodup_keys_foldl_foldEntry seg.1 _ h)
  exact hgen segs [] (by simp)

theorem nodup_keys_applyOp {s : Store} (h : (s.key_dir.map Prod.fst).Nodup)
    (op : Op) : ((applyOp s op).key_dir.map Prod.fst).Nodup := by
  cases op with
  | put ts k v => exact nodup_keys_insert h k _
  | del ts k =>
      have heq : applyOp s (Op.del ts k) = deleteOp s ts k := rfl
      rw [heq]
      unfold deleteOp
      cases hf : kdFind s.key_dir k with
      | none => simpa [hf] using h
      | some e =>
          simp only [hf]
          exact nodup_keys_erase (nodup_keys_insert h k _) k

theorem nodup_keys_exec {s : Store} (h : (s.key_dir.map Prod.fst).Nodup)
    (ops : List Op) : ((exec s ops).key_dir.map Prod.fst).Nodup := by
  induction ops generalizing s with
  | nil => exact h
  | cons op ops ih => exact ih (nodup_keys_applyOp h op)

theorem encodeStream_snoc (rs : List CaskEntry) (e : CaskEntry) :
    encodeStream (rs ++ [e]) = encodeStream rs ++ encodeEntry e := by
  rw [encodeStream_append]
  simp [encodeStream]

theorem positioned_append (rs rs' : List CaskEntry) (pos : Nat) :
    positioned pos (rs ++ rs') =
      positioned pos rs ++ positioned (pos + (encodeStream rs).length) rs' := by
  induction rs generalizing pos with
  | nil => simp [positioned, encodeStream]
  | cons e es ih =>
      simp only [List.cons_append, positioned, List.append_eq]
      rw [ih]
      simp [encodeStream, Nat.add_assoc]

theorem recover_single (fid : Nat) (bs : List Byte) :
    recover [(fid, bs)] = recoverSegment [] (fid, bs) := rfl

theorem recover_snoc (fid : Nat) (rs : List CaskEntry) (e : CaskEntry)
    (hwf : ∀ x ∈ rs, WFEntry x) (hwe : WFEntry e) :
    recover [(fid, encodeStream (rs ++ [e]))] =
      foldEntry fid (recover [(fid, encodeStream rs)])
        ((encodeStream rs).length, e) := by
  rw [recover_single, recover_single,
    recoverSegment_stream fid [] (rs ++ [e])
      (by
        intro x hx
        rcases List.mem_append.mp hx with h | h
        · exact hwf x h
        · simp only [List.mem_singleton] at h
          subst h
          exact hwe),
    recoverSegment_stream fid [] rs hwf, positioned_append]
  simp [positioned, List.foldl_append]

theorem stream_value_slice (old : List Byte) (e : CaskEntry) :
    ((old ++ encodeEntry e).drop (old.length + e.ValueOffset)).take
      e.value.length = e.value := by
  have h : old ++ encodeEntry e =
      (old ++ (toLE 8 e.timestamp ++ toLE 8 e.key_sz ++ toLE 8 e.value_sz ++
        e.key)) ++ e.value := by
    simp [encodeEntry]
  have hlen : (old ++ (toLE 8 e.timestamp ++ toLE 8 e.key_sz ++
      toLE 8 e.value_sz ++ e.key)).length = old.length + e.ValueOffset := by
    simp [toLE_length, CaskEntry.ValueOffset]
    omega
  rw [h, List.drop_left' hlen, List.take_length]

theorem kdFind_erase_some {kd : KeyDirMap} {k k' : List Byte} {e : KeyDirEntry}
    (h : kdFind (kdErase kd k) k' = some e) : kdFind kd k' = some e := by
  by_cases hk : k' = k
  · subst hk
    rw [kdFind_erase_self] at h
    exact absurd h (by simp)
  · rwa [kdFind_erase_ne _ hk] at h

/-- Folding a non-tombstone record whose timestamp beats any existing entry
stores the freshly-computed entry. -/
theorem foldEntry_put (fid : Nat) (kd : KeyDirMap) (pe : Nat × CaskEntry)
    (hnt : pe.2.value ≠ kTombstoneValue)
    (hnew : ∀ ex, kdFind kd pe.2.key = some ex →
      ex.timestamp < pe.2.timestamp) :
    foldEntry fid kd pe =
      kdInsert kd pe.2.key
        ⟨fid, pe.2.value_sz, pe.1 + pe.2.ValueOffset, pe.2.timestamp⟩ := by
  unfold foldEntry
  cases hf : kdFind kd pe.2.key with
  | none => simp [hnt]
  | some ex => simp [not_le.mpr (hnew ex hf), hnt]

/-- Folding a tombstone record whose timestamp beats any existing entry
erases the key. -/
theorem foldEntry_tomb (fid : Nat) (kd : KeyDirMap) (pe : Nat × CaskEntry)
    (htv : pe.2.value = kTombstoneValue)
    (hnew : ∀ ex, kdFind kd pe.2.key = some ex →
      ex.timestamp < pe.2.timestamp) :
    foldEntry fid kd pe = kdErase kd pe.2.key := by
  unfold foldEntry
  cases hf : kdFind kd pe.2.key with
  | none => simp [htv]
  | some ex => simp [not_le.mpr (hnew ex hf), htv]

/-- One step of the session preserves the invariant, moving the bound past
the operation's timestamp. -/
theorem applyOp_inv {fid bound : Nat}
    {m : List Byte → Option (Nat × List Byte)} {s : Store}
    (hinv : SessionInv fid bound m s) (op : Op) (hop : WFOp op)
    (hb : bound ≤ tsOf op) :
    SessionInv fid (tsOf op + 1) (liveApply m op) (applyOp s op) := by
  obtain ⟨hdb, ⟨rs, hrswf, hdisk⟩, hrec, hiff, hval, htsb⟩ := hinv
  cases op with
  | put ts k v =>
      obtain ⟨ht1, ht2, ht3, ht4⟩ := hop
      have hb' : bound ≤ ts := hb
      have hwfe0 : WFEntry ⟨ts, k.length, v.length, k, v⟩ :=
        ⟨ht1, rfl, rfl, ht2, ht3⟩
      have hda : diskLookup s.disk s.db_path = encodeStream rs := by
        rw [hdb, hdisk]
        simp [diskLookup]
      have hda2 : diskLookup s.disk fid = encodeStream rs := by
        rw [hdisk]
        simp [diskLookup]
      have hdisk' : (putOp s ts k v).disk =
          [(fid, encodeStream
            (rs ++ [(⟨ts, k.length, v.length, k, v⟩ : CaskEntry)]))] := by
        show diskWrite s.disk s.db_path
          (encodeEntry ⟨ts, k.length, v.length, k, v⟩) = _
        rw [hdb, hdisk, encodeStream_snoc]
        simp [diskWrite]
      have hkd' : (putOp s ts k v).key_dir =
          kdInsert s.key_dir k
            ⟨fid, v.length, (encodeStream rs).length +
              CaskEntry.ValueOffset ⟨ts, k.length, v.length, k, v⟩, ts⟩ := by
        show kdInsert s.key_dir k
            ⟨s.db_path, v.length, (diskLookup s.disk s.db_path).length +
              CaskEntry.ValueOffset ⟨ts, k.length, v.length, k, v⟩, ts⟩ = _
        rw [hdb, hda2]
      have hnewk : ∀ ex, kdFind s.key_dir k = some ex → ex.timestamp < ts :=
        fun ex hf => lt_of_lt_of_le (htsb k ex hf) hb'
      have hdl : diskLookup (putOp s ts k v).disk fid =
          encodeStream rs ++ encodeEntry ⟨ts, k.length, v.length, k, v⟩ := by
        rw [hdisk', encodeStream_snoc]
        simp [diskLookup]
      show SessionInv fid (ts + 1) (liveApply m (.put ts k v)) (putOp s ts k v)
      refine ⟨hdb, ⟨rs ++ [⟨ts, k.length, v.length, k, v⟩], ?_, hdisk'⟩,
        ?_, ?_, ?_, ?_⟩
      · intro x hx
        rcases List.mem_append.mp hx with h | h
        · exact hrswf x h
        · simp only [List.mem_singleton] at h
          subst h
          exact hwfe0
      · rw [hkd', hdisk', recover_snoc fid rs _ hrswf hwfe0, ← hdisk, ← hrec]
        exact (foldEntry_put fid s.key_dir ((encodeStream rs).length,
          ⟨ts, k.length, v.length, k, v⟩) ht4 hnewk).symm
      · intro k''
        rw [hkd']
        by_cases hk : k = k''
        · subst hk
          rw [kdFind_insert_self]
          simp [liveApply]
        · rw [kdFind_insert_ne _ _ (Ne.symm hk)]
          simpa [liveApply, hk] using hiff k''
      · intro k'' ts' v' hm'
        by_cases hk : k = k''
        · subst hk
          simp [liveApply] at hm'
          obtain ⟨h1, h2⟩ := hm'
          subst h1
          subst h2
          refine ⟨⟨fid, v.length, (encodeStream rs).length +
              CaskEntry.ValueOffset ⟨ts, k.length, v.length, k, v⟩, ts⟩,
            ?_, rfl, rfl, rfl, ?_, ?_⟩
          · rw [hkd']
            exact kdFind_insert_self _ _ _
          · rw [hdl]
            simp only [List.length_append, CaskEntry.ValueOffset,
              encodeEntry_length]
            omega
          · rw [hdl]
            exact stream_value_slice (encodeStream rs)
              ⟨ts, k.length, v.length, k, v⟩
        · simp only [liveApply, if_neg hk] at hm'
          obtain ⟨e, hfind, h1, h2, h3, h4, h5⟩ := hval k'' ts' v' hm'
          rw [hda2] at h4 h5
          refine ⟨e, ?_, h1, h2, h3, ?_, ?_⟩
          · rw [hkd', kdFind_insert_ne _ _ (Ne.symm hk)]
            exact hfind
          · rw [hdl]
            simp only [List.length_append]
            omega
          · rw [hdl, slice_append (by omega)]
            exact h5
      · intro k'' e hfe
        rw [hkd'] at hfe
        by_cases hk : k = k''
        · subst hk
          rw [kdFind_insert_self] at hfe
          simp only [Option.some.injEq] at hfe
          subst hfe
          exact Nat.lt_succ_self ts
        · rw [kdFind_insert_ne _ _ (Ne.symm hk)] at hfe
          have := htsb k'' e hfe
          omega
  | del ts k =>
      obtain ⟨ht1, ht2⟩ := hop
      have hb' : bound ≤ ts := hb
      show SessionInv fid (ts + 1) (liveApply m (.del ts k)) (deleteOp s ts k)
      cases hf : kdFind s.key_dir k with
      | none =>
          have hdel : deleteOp s ts k = s := by
            unfold deleteOp
            rw [hf]
          rw [hdel]
          refine ⟨hdb, ⟨rs, hrswf, hdisk⟩, hrec, ?_, ?_, ?_⟩
          · intro k''
            by_cases hk : k = k''
            · subst hk
              simp [liveApply, hf]
            · simpa [liveApply, hk] using hiff k''
          · intro k'' ts' v' hm'
            by_cases hk : k = k''
            · subst hk
              simp [liveApply] at hm'
            · simp only [liveApply, if_neg hk] at hm'
              exact hval k'' ts' v' hm'
          · intro k'' e hfe
            have := htsb k'' e hfe
            omega
      | some ex =>
          have hdel : deleteOp s ts k =
              { putOp s ts k kTombstoneValue with
                key_dir := kdErase (putOp s ts k kTombstoneValue).key_dir k } := by
            unfold deleteOp
            rw [hf]
          have hwfe0 : WFEntry
              ⟨ts, k.length, kTombstoneValue.length, k, kTombstoneValue⟩ :=
            ⟨ht1, rfl, rfl, ht2, by norm_num [kTombstoneValue]⟩
          have hda2 : diskLookup s.disk fid = encodeStream rs := by
            rw [hdisk]
            simp [diskLookup]
          have hdisk' : (deleteOp s ts k).disk =
              [(fid, encodeStream (rs ++
                [⟨ts, k.length, kTombstoneValue.length, k, kTombstoneValue⟩]))] := by
            rw [hdel]
            show diskWrite s.disk s.db_path
              (encodeEntry ⟨ts, k.length, kTombstoneValue.length, k,
                kTombstoneValue⟩) = _
            rw [hdb, hdisk, encodeStream_snoc]
            simp [diskWrite]
          have hnewk : ∀ ex', kdFind s.key_dir k = some ex' →
              ex'.timestamp < ts :=
            fun ex' hf' => lt_of_lt_of_le (htsb k ex' hf') hb'
          have hkd' : (deleteOp s ts k).key_dir = kdErase s.key_dir k := by
            rw [hdel]
            show kdErase (kdInsert s.key_dir k _) k = _
            exact kdErase_insert _ _ _
          have hdl : diskLookup (deleteOp s ts k).disk fid =
              encodeStream rs ++ encodeEntry
                ⟨ts, k.length, kTombstoneValue.length, k, kTombstoneValue⟩ := by
            rw [hdisk', encodeStream_snoc]
            simp [diskLookup]
          refine ⟨?_, ⟨rs ++
            [⟨ts, k.length, kTombstoneValue.length, k, kTombstoneValue⟩],
            ?_, hdisk'⟩, ?_, ?_, ?_, ?_⟩
          · rw [hdel]
            exact hdb
          · intro x hx
            rcases List.mem_append.mp hx with h | h
            · exact hrswf x h
            · simp only [List.mem_singleton] at h
              subst h
              exact hwfe0
          · rw [hkd', hdisk', recover_snoc fid rs _ hrswf hwfe0, ← hdisk, ← hrec]
            exact (foldEntry_tomb fid s.key_dir ((encodeStream rs).length,
              ⟨ts, k.length, kTombstoneValue.length, k, kTombstoneValue⟩)
              rfl hnewk).symm
          · intro k''
            rw [hkd']
            by_cases hk : k = k''
            · subst hk
              simp [kdFind_erase_self, liveApply]
            · rw [kdFind_erase_ne _ (Ne.symm hk)]
              simpa [liveApply, hk] using hiff k''
          · intro k'' ts' v' hm'
            by_cases hk : k = k''
            · subst hk
              simp [liveApply] at hm'
            · simp only [liveApply, if_neg hk] at hm'
              obtain ⟨e, hfind, h1, h2, h3, h4, h5⟩ := hval k'' ts' v' hm'
              rw [hda2] at h4 h5
              refine ⟨e, ?_, h1, h2, h3, ?_, ?_⟩
              · rw [hkd', kdFind_erase_ne _ (Ne.symm hk)]
                exact hfind
              · rw [hdl]
                simp only [List.length_append]
                omega
              · rw [hdl, slice_append (by omega)]
                exact h5
          · intro k'' e hfe
            rw [hkd'] at hfe
            have := htsb k'' e (kdFind_erase_some hfe)
            omega

/-- The invariant holds along any session with strictly increasing
timestamps whose operations start at or above the bound. -/
theorem exec_inv {fid bound : Nat} {m : List Byte → Option (Nat × List Byte)}
    {s : Store} (hinv : SessionInv fid bound m s) (ops : List Op)
    (hwf : ∀ op ∈ ops, WFOp op)
    (hmono : ops.Pairwise (fun a b => tsOf a < tsOf b))
    (hb : ∀ op ∈ ops, bound ≤ tsOf op) :
    ∃ bound2, SessionInv fid bound2 (liveFrom m ops) (exec s ops) := by
  induction ops generalizing bound m s with
  | nil => exact ⟨bound, hinv⟩
  | cons op ops ih =>
      obtain ⟨hrel, hmono2⟩ := List.pairwise_cons.mp hmono
      have h1 := applyOp_inv hinv op (hwf op (by simp)) (hb op (by simp))
      exact ih h1 (fun o ho => hwf o (by simp [ho])) hmono2
        (fun o ho => Nat.succ_le_of_lt (hrel o ho))

/-- A freshly created store over an empty directory satisfies the invariant
with the empty spec map. -/
theorem openStore_empty_inv (fid : Nat) :
    SessionInv fid 0 (fun _ => none) (openStore [] fid) := by
  refine ⟨rfl, ⟨[], by simp, rfl⟩, ?_, ?_, ?_, ?_⟩
  · show recover [] = recover [(fid, [])]
    rw [recover_single]
    show recover [] = (decodeAllFrom 0 []).foldl (foldEntry fid) []
    rw [decodeAllFrom_none (by decide)]
    rfl
  · intro k
    exact ⟨fun _ => rfl, fun _ => rfl⟩
  · intro k ts v hm
    exact Option.noConfusion hm
  · intro k e hfe
    exact Option.noConfusion hfe

/-- C6 counterexample: two sessions built by the model itself — session one
puts key `[75]` at timestamp 3, session two (after recovering it) deletes it
at timestamp 8, appending a tombstone to its own segment.  Reopening with
the directory iterator yielding the segments in the opposite order leaves
the KeyDir holding the timestamp-3 record, although the key's most recent
visible record is the timestamp-8 tombstone: the erase on the tombstone
forgets its timestamp, so the invariant fails after that recovery. -/
theorem C6_counterexample :
    kdFind (recover (exec (openStore (exec (openStore [] 0)
        [Op.put 3 [75] [49]]).disk 1) [Op.del 8 [75]]).disk.reverse) [75] =
      some ⟨0, 1, 25, 3⟩ := by
  decide

/-- C6 amended: after every in-session sequence of Put/Delete operations
(from a fresh store, with strictly increasing timestamps and no Put of the
reserved marker value), the KeyDir binds exactly the keys whose last
operation is a Put, each to an entry carrying that Put's timestamp and
reading back that Put's value — i.e. the record with the greatest timestamp
not superseded by a later tombstone; moreover the KeyDir always equals what
recovering the session's own segment yields, so reopening the directory
(segments processed in session order) reproduces it.  Recovery over
*multiple* segments in an adversarial processing order can violate the
invariant (see the counterexample). -/
theorem C6_keydir_invariant (fid new2 : Nat) (ops : List Op)
    (hwf : ∀ op ∈ ops, WFOp op)
    (hmono : ops.Pairwise (fun a b => tsOf a < tsOf b)) :
    (∀ k, kdFind (exec (openStore [] fid) ops).key_dir k = none ↔
      liveVal ops k = none) ∧
    (∀ k ts v, liveVal ops k = some (ts, v) →
      ∃ e, kdFind (exec (openStore [] fid) ops).key_dir k = some e ∧
        e.timestamp = ts ∧ getOp (exec (openStore [] fid) ops) k = some v) ∧
    (exec (openStore [] fid) ops).key_dir =
      recover (exec (openStore [] fid) ops).disk ∧
    (openStore (exec (openStore [] fid) ops).disk new2).key_dir =
      (exec (openStore [] fid) ops).key_dir := by
  obtain ⟨bound2, hdb, hstr, hrec, hiff, hval, -⟩ :=
    exec_inv (openStore_empty_inv fid) ops hwf hmono (fun _ _ => Nat.zero_le _)
  refine ⟨hiff, ?_, hrec, ?_⟩
  · intro k ts v hm
    obtain ⟨e, hfind, h1, h2, h3, h4, h5⟩ := hval k ts v hm
    refine ⟨e, hfind, h1, ?_⟩
    simp only [getOp, hfind]
    rw [h2, h5]
  · show recover (exec (openStore [] fid) ops).disk = _
    exact hrec.symm

theorem C6_keydir_invariant_witness :
    kdFind (exec (openStore [] 0) [Op.put 1 [65] [49], Op.put 2 [66] [50],
      Op.del 3 [66]]).key_dir [66] = none ∧
    getOp (exec (openStore [] 0) [Op.put 1 [65] [49], Op.put 2 [66] [50],
      Op.del 3 [66]]) [65] = some [49] ∧
    (openStore (exec (openStore [] 0) [Op.put 1 [65] [49], Op.put 2 [66] [50],
      Op.del 3 [66]]).disk 1).key_dir =
      (exec (openStore [] 0) [Op.put 1 [65] [49], Op.put 2 [66] [50],
        Op.del 3 [66]]).key_dir := by
  have h := C6_keydir_invariant 0 1
    [Op.put 1 [65] [49], Op.put 2 [66] [50], Op.del 3 [66]]
    (by decide) (by decide)
  refine ⟨(h.1 [66]).mpr (by decide), ?_, h.2.2.2⟩
  obtain ⟨e, -, -, hget⟩ := h.2.1 [65] 1 [49] (by decide)
  exact hget

/-- C10: `Put(k, marker)` with the reserved tombstone marker passed as an
ordinary value: within the session `Get(k)` returns the marker string, but
recovery treats every record whose value equals the marker as a delete
regardless of how it was produced (and `Put` performs no escaping), so after
reopening the directory the key is absent — the marker string cannot be
durably stored as a value. -/
theorem C10_marker_value_not_durable (k : List Byte) (ts new1 new2 : Nat)
    (hts : ts < 2 ^ 64) (hk : k.length < 2 ^ 64) :
    getOp (putOp (openStore [] new1) ts k kTombstoneValue) k =
      some kTombstoneValue ∧
    getOp (openStore (putOp (openStore [] new1) ts k kTombstoneValue).disk
      new2) k = none := by
  refine ⟨getOp_putOp_self _ ts k kTombstoneValue, ?_⟩
  rw [getOp_none_iff]
  have hdisk : (putOp (openStore [] new1) ts k kTombstoneValue).disk =
      [(new1, encodeStream [⟨ts, k.length, kTombstoneValue.length, k,
        kTombstoneValue⟩])] := by
    simp [putOp, openStore, diskCreate, diskWrite, encodeStream]
  show kdFind
    (recover (putOp (openStore [] new1) ts k kTombstoneValue).disk) k = none
  rw [hdisk]
  have hwf : ∀ e ∈ [(⟨ts, k.length, kTombstoneValue.length, k,
      kTombstoneValue⟩ : CaskEntry)], WFEntry e := by
    intro e he
    simp only [List.mem_singleton] at he
    subst he
    exact ⟨hts, rfl, rfl, hk, by norm_num [kTombstoneValue]⟩
  have hrec : recover [(new1, encodeStream [⟨ts, k.length,
      kTombstoneValue.length, k, kTombstoneValue⟩])] = [] := by
    show recoverSegment [] (new1, encodeStream [⟨ts, k.length,
      kTombstoneValue.length, k, kTombstoneValue⟩]) = []
    rw [recoverSegment_stream new1 [] _ hwf]
    simp [positioned, foldEntry, kdFind, kdErase]
  rw [hrec]
  rfl

theorem C10_marker_value_not_durable_witness :
    getOp (putOp (openStore [] 0) 1 [65] kTombstoneValue) [65] =
      some kTombstoneValue ∧
    getOp (openStore (putOp (openStore [] 0) 1 [65] kTombstoneValue).disk 7)
      [65] = none :=
  C10_marker_value_not_durable [65] 1 0 7 (by norm_num) (by norm_num)

/-- C9: after any sequence of Put/Delete operations on a freshly opened
store, `ListKeys` returns exactly the keys present in the KeyDir — every
live key exactly once, no deleted key — and in particular
Put X, Put Y, Put X, Delete Y leaves exactly key X. -/
theorem C9_listKeys (disk : List (Nat × List Byte)) (new_path : Nat)
    (ops : List Op) (k : List Byte) :
    (listKeys (exec (openStore disk new_path) ops)).Nodup ∧
    (k ∈ listKeys (exec (openStore disk new_path) ops) ↔
      kdFind (exec (openStore disk new_path) ops).key_dir k ≠ none) ∧
    listKeys (exec (openStore [] 0)
      [Op.put 1 [88] [49], Op.put 2 [89] [50], Op.put 3 [88] [51],
        Op.del 4 [89]]) = [[88]] := by
  refine ⟨?_, ?_, by decide⟩
  · exact nodup_keys_exec (by simpa [openStore] using nodup_keys_recover disk) ops
  · have hiff := kdFind_eq_none_iff (exec (openStore disk new_path) ops).key_dir k
    unfold listKeys
    constructor
    · intro hm hn
      exact (hiff.mp hn) hm
    · intro hn
      by_contra hm
      exact hn (hiff.mpr hm)

end Bitcask
